import Mathlib

/-!
Verification of the mcpiper MessagePrinter core
(mcrouter/tools/mcpiper/MessagePrinter.cpp).

The C++ code is shallowly embedded: the printer's mutable members
(printedMessages_, afterMatchCount_) become fields of an explicit state
record, the side effects on the output sink (operator<<, flush) and the
invocations of the stop callback / the failed assert are recorded in ghost
fields of the same record, and each member function becomes a Lean function
on that record.  Machine integers (uint64_t counters, uint16_t ports) stay
far from overflow in every statement below, so they are modelled as Nat;
afterMatchCount_ is a signed counter in the C++ class and is modelled as Int.
-/

namespace Mcpiper

/-- Address family of a folly::SocketAddress (only AF_UNIX is distinguished
by the code under study). -/
inductive AddrFamily where
  | af_unix
  | af_inet
  | af_inet6
  | af_unspec
deriving DecidableEq

/-- Model of folly::SocketAddress as observed by MessagePrinter.cpp:
`isEmpty` models `address.empty()`, `ip` models `address.getIPAddress()`
(as an abstract string), `port` models `address.getPort()`, `description`
models `address.describe()`, and `family` models `address.getFamily()`. -/
structure SocketAddress where
  isEmpty : Bool
  family : AddrFamily
  ip : String
  port : Nat
  description : String
deriving DecidableEq

/-- MessagePrinter::Filter: an expected IP (folly::IPAddress, whose
`.empty()` is modelled by the empty string) and an expected port
(0 = unset). -/
structure Filter where
  host : String
  port : Nat
deriving DecidableEq

/-- MessagePrinter::Options, restricted to the fields read by
MessagePrinter.cpp.  The stop callback `stopRunningFn` is modelled by
whether one is registered; its invocations are counted in the ghost field
`stopCalls` of the printer state. -/
structure Options where
  maxMessages : Nat
  numAfterMatch : Nat
  disableColor : Bool
  hasStopRunningFn : Bool
deriving DecidableEq

/-- The printer state: configuration plus the mutable counters of the C++
class, plus ghost fields recording the observable effects (writes to
targetOut_, flushes, stop-callback invocations, failed asserts). -/
structure MessagePrinter where
  options : Options
  filter : Filter
  printedMessages : Nat
  afterMatchCount : Int
  colorOutput : Bool
  outputWrites : List (List Nat)
  flushes : Nat
  stopCalls : Nat
  assertFailures : Nat
deriving DecidableEq

/-- MessagePrinter::MessagePrinter: stores options and filter and disables
color on the output sink when requested.  Note that the constructor performs
no validation of the option combination. -/
def mkMessagePrinter (options : Options) (filter : Filter) : MessagePrinter :=
  { options := options
    filter := filter
    printedMessages := 0
    afterMatchCount := 0
    colorOutput := !options.disableColor
    outputWrites := []
    flushes := 0
    stopCalls := 0
    assertFailures := 0 }

/-- matchIPAddress (anonymous namespace): a non-empty address whose IP
equals the expected one. -/
def matchIPAddress (expectedIp : String) (address : SocketAddress) : Bool :=
  !address.isEmpty && expectedIp == address.ip

/-- matchPort (anonymous namespace): a non-empty address whose port equals
the expected one. -/
def matchPort (expectedPort : Nat) (address : SocketAddress) : Bool :=
  !address.isEmpty && expectedPort == address.port

/-- describeAddress (anonymous namespace).  The constants
MessageHeader::kAddressMaxSize and kUnixSocketPrefix live in headers outside
this excerpt, so the threshold ingredients are passed as parameters
`kAddressMaxSize` and `unixPrefixSize` (the length of the unix-socket
prefix string).  For an AF_UNIX address whose description length is at
least kAddressMaxSize - unixPrefixSize - 1 the code appends "..." to the
description; otherwise the description is returned unchanged. -/
def describeAddress (kAddressMaxSize unixPrefixSize : Nat)
    (address : SocketAddress) : String :=
  let res := address.description
  if address.family = AddrFamily.af_unix ∧
      kAddressMaxSize - unixPrefixSize - 1 ≤ res.length then
    res ++ "..."
  else
    res

/-- MessagePrinter::matchAddress: the conjunction of the host criterion
(when set) and the port criterion (when set), each satisfied by at least
one of the two endpoints. -/
def matchAddress (filter : Filter) (fromAddr toAddr : SocketAddress) : Bool :=
  if (filter.host != "") && !matchIPAddress filter.host fromAddr &&
      !matchIPAddress filter.host toAddr then
    false
  else if (filter.port != 0) && !matchPort filter.port fromAddr &&
      !matchPort filter.port toAddr then
    false
  else
    true

/-- MessagePrinter::countStats: increments printedMessages_; when a positive
maxMessages bound has been reached, invokes the stop callback (recorded in
`stopCalls`) -- the C++ code asserts that the callback is registered, and a
violated assert is recorded in `assertFailures` (in a debug build the
program aborts there); when numAfterMatch is positive, decrements
afterMatchCount_. -/
def countStats (p : MessagePrinter) : MessagePrinter :=
  let p1 := { p with printedMessages := p.printedMessages + 1 }
  let p2 :=
    if 0 < p1.options.maxMessages ∧
        p1.options.maxMessages ≤ p1.printedMessages then
      if p1.options.hasStopRunningFn then
        { p1 with stopCalls := p1.stopCalls + 1 }
      else
        { p1 with assertFailures := p1.assertFailures + 1 }
    else p1
  if 0 < p2.options.numAfterMatch then
    { p2 with afterMatchCount := p2.afterMatchCount - 1 }
  else p2

/-- MessagePrinter::printRawMessage.  The iovec array is modelled as
`Option (List (List Nat))`: `none` is the nullptr sentinel, and
`some bufs` is a non-null array of `bufs.length` buffers, each buffer the
list of its bytes.  For a non-null array the code concatenates all buffer
segments, writes the result to targetOut_, flushes, and calls countStats. -/
def printRawMessage (p : MessagePrinter) (iovs : Option (List (List Nat))) :
    MessagePrinter :=
  match iovs with
  | none => p
  | some bufs =>
      let rawMessage := bufs.flatten
      let p1 := { p with outputWrites := p.outputWrites ++ [rawMessage] }
      let p2 := { p1 with flushes := p1.flushes + 1 }
      countStats p2

/-- mc_protocol_t.  Modelled from the spec: the enum itself lives in the
external libmc headers; only the unknown/known distinction and the
protocol's printable name matter to the code under study. -/
inductive mc_protocol_t where
  | mc_unknown_protocol
  | mc_ascii_protocol
  | mc_umbrella_protocol
  | mc_caret_protocol
deriving DecidableEq

/-- Modelled from the spec: mc_protocol_to_string (external libmc) gives the
printable name of each protocol. -/
def mc_protocol_to_string : mc_protocol_t → String
  | .mc_unknown_protocol => "unknown"
  | .mc_ascii_protocol => "ascii"
  | .mc_umbrella_protocol => "umbrella"
  | .mc_caret_protocol => "caret"

/-- MessagePrinter::serializeConnectionDetails: appends, in order, the
description of `fromAddr` when non-empty, the arrow " -> " when at least
one endpoint is non-empty, the description of `toAddr` when non-empty, and
" (<protocol>)" when at least one endpoint is non-empty and the protocol is
known. -/
def serializeConnectionDetails (kAddressMaxSize unixPrefixSize : Nat)
    (fromAddr toAddr : SocketAddress) (protocol : mc_protocol_t) : String :=
  let out := ""
  let out := if !fromAddr.isEmpty then
      out ++ describeAddress kAddressMaxSize unixPrefixSize fromAddr
    else out
  let out := if !fromAddr.isEmpty || !toAddr.isEmpty then out ++ " -> " else out
  let out := if !toAddr.isEmpty then
      out ++ describeAddress kAddressMaxSize unixPrefixSize toAddr
    else out
  let out := if (!fromAddr.isEmpty || !toAddr.isEmpty) &&
      protocol != mc_protocol_t.mc_unknown_protocol then
      out ++ " (" ++ mc_protocol_to_string protocol ++ ")"
    else out
  out

/-- mc_op_t.  Modelled from the spec: the operation enum is external; the
code only distinguishes mc_op_unknown and stringifies the rest, so a known
operation carries its printable name. -/
inductive mc_op_t where
  | mc_op_unknown
  | mc_op_known (name : String)
deriving DecidableEq

/-- Modelled from the spec: mc_op_to_string (external libmc). -/
def mc_op_to_string : mc_op_t → String
  | .mc_op_unknown => "unknown"
  | .mc_op_known n => n

/-- mc_res_t.  Modelled from the spec: the result enum is external; a known
result carries its printable name. -/
inductive mc_res_t where
  | mc_res_unknown
  | mc_res_known (name : String)
deriving DecidableEq

/-- Modelled from the spec: mc_res_to_string (external libmc). -/
def mc_res_to_string : mc_res_t → String
  | .mc_res_unknown => "unknown"
  | .mc_res_known n => n

/-- A byte that needs no escaping: printable ASCII. -/
def isPrintableByte (b : Nat) : Bool :=
  decide (0x20 ≤ b) && decide (b < 0x7f)

/-- One lower-case hex digit. -/
def hexDigitChar (n : Nat) : Char :=
  if n < 10 then Char.ofNat (48 + n) else Char.ofNat (87 + n % 16)

/-- Modelled from the spec: folly::backslashify (external folly) renders
every non-printable or control byte of the key as a backslash-escaped
sequence and leaves every other byte unchanged. -/
def backslashifyByte (b : Nat) : String :=
  if isPrintableByte b then
    String.mk [Char.ofNat b]
  else
    String.mk ['\\', 'x', hexDigitChar (b / 16), hexDigitChar (b % 16)]

/-- Modelled from the spec: folly::backslashify applied to a whole key
(a byte string), byte by byte. -/
def backslashify : List Nat → String
  | [] => ""
  | b :: rest => backslashifyByte b ++ backslashify rest

/-- MessagePrinter::serializeMessageHeader: appends the operation name when
the operation is known, then the result name when the result is known
(preceded by a space when something was already emitted), then the
backslashified key when the key is non-empty (again preceded by a space
when something was already emitted). -/
def serializeMessageHeader (op : mc_op_t) (result : mc_res_t)
    (key : List Nat) : String :=
  let out := ""
  let out := if op ≠ mc_op_t.mc_op_unknown then out ++ mc_op_to_string op
    else out
  let out := if result ≠ mc_res_t.mc_res_unknown then
      (if 0 < out.length then out ++ " " else out) ++ mc_res_to_string result
    else out
  let out := if key.length ≠ 0 then
      (if 0 < out.length then out ++ " " else out) ++ backslashify key
    else out
  out

/-- Modelled from the spec: when a message satisfies a search match,
MessagePrinter::printMessage (outside this excerpt) arms the after-match
counter with the configured numAfterMatch count. -/
def startAfterMatch (p : MessagePrinter) : MessagePrinter :=
  { p with afterMatchCount := (p.options.numAfterMatch : Int) }

/-!
MessagePrinter::matchAll iterates a boost::cregex_token_iterator over the
text.  The regular-expression engine itself is external (boost), so it is
modelled here by a standard regular-expression datatype with a
Brzozowski-derivative matcher (`rmatch`), using leftmost-longest match
selection at each position.  The iterator protocol is the one of
boost::regex_iterator: each search resumes at the end of the previous
match, and after a zero-length match a zero-length match at that same
resume position is disallowed (otherwise the scan would not terminate). -/

/-- A regular expression over characters. -/
inductive Regex where
  | emptyset
  | epsilon
  | char (c : Char)
  | alt (r₁ r₂ : Regex)
  | cat (r₁ r₂ : Regex)
  | star (r : Regex)
deriving DecidableEq

/-- Whether a regex accepts the empty string. -/
def nullable : Regex → Bool
  | .emptyset => false
  | .epsilon => true
  | .char _ => false
  | .alt a b => nullable a || nullable b
  | .cat a b => nullable a && nullable b
  | .star _ => true

/-- Brzozowski derivative of a regex by one character. -/
def deriv (r : Regex) (c : Char) : Regex :=
  match r with
  | .emptyset => .emptyset
  | .epsilon => .emptyset
  | .char d => if d = c then .epsilon else .emptyset
  | .alt a b => .alt (deriv a c) (deriv b c)
  | .cat a b =>
      if nullable a then .alt (.cat (deriv a c) b) (deriv b c)
      else .cat (deriv a c) b
  | .star a => .cat (deriv a c) (.star a)

/-- Whether a regex matches a whole string (the model of a full regex
match of the external engine). -/
def rmatch (r : Regex) : List Char → Bool
  | [] => nullable r
  | c :: s => rmatch (deriv r c) s

/-- Greatest length m ≤ bound such that the regex matches t.take m
(leftmost-longest selection at one position); when `requireNonNull` is set,
a zero-length match is not considered. -/
def bestLenAtAux (r : Regex) (t : List Char) (requireNonNull : Bool) :
    Nat → Option Nat
  | 0 => if requireNonNull then none else if rmatch r [] then some 0 else none
  | l + 1 =>
      if rmatch r (t.take (l + 1)) then some (l + 1)
      else bestLenAtAux r t requireNonNull l

/-- One search step of the iterator: the leftmost position at or after
`pos` carrying a match, paired with the (longest) match length there; when
`nn` is set, a zero-length match exactly at `pos` is disallowed.  The fuel
argument is always called with at least s.length + 1 - pos, which makes the
recursion structural; `findFrom` below fixes it. -/
def findFromAux (r : Regex) (s : List Char) :
    Bool → Nat → Nat → Option (Nat × Nat)
  | _, _, 0 => none
  | nn, pos, fuel + 1 =>
      if s.length < pos then none
      else
        match bestLenAtAux r (s.drop pos) nn (s.drop pos).length with
        | some l => some (pos, l)
        | none => findFromAux r s false (pos + 1) fuel

/-- The leftmost match of r in s at or after pos (see `findFromAux`). -/
def findFrom (r : Regex) (s : List Char) (nn : Bool) (pos : Nat) :
    Option (Nat × Nat) :=
  findFromAux r s nn pos (s.length + 1 - pos)

theorem bestLenAtAux_some {r : Regex} {t : List Char} {nn : Bool}
    {bound m : Nat} (h : bestLenAtAux r t nn bound = some m) :
    m ≤ bound ∧ rmatch r (t.take m) = true ∧ (nn = true → 0 < m) := by
  induction bound with
  | zero =>
      simp only [bestLenAtAux] at h
      split at h
      · exact absurd h (by simp)
      · rename_i hnn
        split at h
        · rename_i hr
          injection h with h'
          subst h'
          exact ⟨Nat.le_refl 0, by simpa using hr, fun ht => absurd ht hnn⟩
        · exact absurd h (by simp)
  | succ l ih =>
      simp only [bestLenAtAux] at h
      split at h
      · rename_i hr
        injection h with h'
        subst h'
        exact ⟨Nat.le_refl _, hr, fun _ => Nat.succ_pos l⟩
      · obtain ⟨h1, h2, h3⟩ := ih h
        exact ⟨Nat.le_succ_of_le h1, h2, h3⟩

theorem bestLenAtAux_max {r : Regex} {t : List Char} {nn : Bool}
    {bound m : Nat} (h : bestLenAtAux r t nn bound = some m) :
    ∀ k, m < k → k ≤ bound → rmatch r (t.take k) = false := by
  induction bound with
  | zero =>
      intro k hk1 hk2
      omega
  | succ l ih =>
      simp only [bestLenAtAux] at h
      split at h
      · rename_i hr
        injection h with h'
        subst h'
        intro k hk1 hk2
        omega
      · rename_i hr
        intro k hk1 hk2
        rcases Nat.lt_or_ge k (l + 1) with hk | hk
        · exact ih h k hk1 (by omega)
        · have : k = l + 1 := by omega
          subst this
          exact Bool.not_eq_true _ ▸ Bool.of_not_eq_true hr

theorem bestLenAtAux_none {r : Regex} {t : List Char} {nn : Bool}
    {bound : Nat} (h : bestLenAtAux r t nn bound = none) :
    ∀ k, k ≤ bound → (nn = true → 0 < k) → rmatch r (t.take k) = false := by
  induction bound with
  | zero =>
      intro k hk hnn
      simp only [bestLenAtAux] at h
      split at h
      · rename_i ht
        have : k = 0 := by omega
        subst this
        exact absurd (hnn ht) (by omega)
      · split at h
        · exact absurd h (by simp)
        · rename_i hr
          have : k = 0 := by omega
          subst this
          simpa using Bool.of_not_eq_true hr
  | succ l ih =>
      simp only [bestLenAtAux] at h
      split at h
      · exact absurd h (by simp)
      · rename_i hr
        intro k hk hnn
        rcases Nat.lt_or_ge k (l + 1) with hk' | hk'
        · exact ih h k (by omega) hnn
        · have : k = l + 1 := by omega
          subst this
          exact Bool.of_not_eq_true hr

theorem findFromAux_some {r : Regex} {s : List Char} :
    ∀ {fuel : Nat} {nn : Bool} {pos o l : Nat},
      findFromAux r s nn pos fuel = some (o, l) →
      pos ≤ o ∧ o + l ≤ s.length ∧ rmatch r ((s.drop o).take l) = true ∧
        (nn = true → o = pos → 0 < l) ∧
        (∀ k, l < k → o + k ≤ s.length →
          rmatch r ((s.drop o).take k) = false) ∧
        (∀ i, pos ≤ i → i < o → ∀ k, i + k ≤ s.length →
          (nn = true → i = pos → 0 < k) →
          rmatch r ((s.drop i).take k) = false) := by
  intro fuel
  induction fuel with
  | zero =>
      intro nn pos o l h
      simp [findFromAux] at h
  | succ f ih =>
      intro nn pos o l h
      simp only [findFromAux] at h
      split at h
      · exact absurd h (by simp)
      · rename_i hpos
        split at h
        · rename_i l' hb
          injection h with h'
          injection h' with h1 h2
          subst h1
          subst h2
          obtain ⟨hm1, hm2, hm3⟩ := bestLenAtAux_some hb
          have hdrop : (s.drop pos).length = s.length - pos :=
            List.length_drop ..
          refine ⟨Nat.le_refl _, by omega, hm2, fun _ _ => hm3 ‹_›, ?_, ?_⟩
          · intro k hk1 hk2
            exact bestLenAtAux_max hb k hk1 (by omega)
          · intro i hi1 hi2
            omega
        · rename_i hb
          obtain ⟨h1, h2, h3, _, h5, h6⟩ := ih h
          have hdrop : (s.drop pos).length = s.length - pos :=
            List.length_drop ..
          refine ⟨by omega, h2, h3, by omega, h5, ?_⟩
          intro i hi1 hi2 k hk hallow
          rcases Nat.eq_or_lt_of_le hi1 with heq | hlt
          · subst heq
            exact bestLenAtAux_none hb k (by omega)
              (fun ht => hallow ht rfl)
          · exact h6 i hlt hi2 k hk (by simp)

theorem findFrom_some {r : Regex} {s : List Char} {nn : Bool} {pos o l : Nat}
    (h : findFrom r s nn pos = some (o, l)) :
    pos ≤ o ∧ o + l ≤ s.length ∧ rmatch r ((s.drop o).take l) = true ∧
      (nn = true → o = pos → 0 < l) ∧
      (∀ k, l < k → o + k ≤ s.length →
        rmatch r ((s.drop o).take k) = false) ∧
      (∀ i, pos ≤ i → i < o → ∀ k, i + k ≤ s.length →
        (nn = true → i = pos → 0 < k) →
        rmatch r ((s.drop i).take k) = false) :=
  findFromAux_some h

theorem findFromAux_none {r : Regex} {s : List Char} :
    ∀ {fuel : Nat} {nn : Bool} {pos : Nat},
      s.length + 1 - pos ≤ fuel →
      findFromAux r s nn pos fuel = none →
      ∀ i, pos ≤ i → ∀ k, i + k ≤ s.length →
        (nn = true → i = pos → 0 < k) →
        rmatch r ((s.drop i).take k) = false := by
  intro fuel
  induction fuel with
  | zero =>
      intro nn pos hfuel h i hi k hk hallow
      exact absurd hk (by omega)
  | succ f ih =>
      intro nn pos hfuel h i hi k hk hallow
      simp only [findFromAux] at h
      split at h
      · rename_i hpos
        exact absurd hk (by omega)
      · rename_i hpos
        split at h
        · exact absurd h (by simp)
        · rename_i hb
          rcases Nat.eq_or_lt_of_le hi with heq | hlt
          · subst heq
            have hdrop : (s.drop pos).length = s.length - pos :=
              List.length_drop ..
            exact bestLenAtAux_none hb k (by omega)
              (fun ht => hallow ht rfl)
          · exact ih (by omega) h i hlt k hk (by simp)

theorem findFrom_none {r : Regex} {s : List Char} {nn : Bool} {pos : Nat}
    (h : findFrom r s nn pos = none) :
    ∀ i, pos ≤ i → ∀ k, i + k ≤ s.length →
      (nn = true → i = pos → 0 < k) →
      rmatch r ((s.drop i).take k) = false :=
  findFromAux_none (Nat.le_refl _) h

/-- MessagePrinter::matchAll's scan loop: repeatedly take the next match,
record its (offset, length), and resume at its end, disallowing a repeated
zero-length match at the resume position (the boost::regex_iterator
protocol, which is what makes the loop terminate on patterns matching the
empty string). -/
def matchAllAux (r : Regex) (s : List Char) (nn : Bool) (pos : Nat) :
    List (Nat × Nat) :=
  match h : findFrom r s nn pos with
  | none => []
  | some (o, l) => (o, l) :: matchAllAux r s (decide (l = 0)) (o + l)
termination_by 2 * (s.length + 1 - pos) + cond nn 0 1
decreasing_by
  obtain ⟨hpo, hol, _, hnn, _, _⟩ := findFrom_some h
  rcases Nat.eq_zero_or_pos l with rfl | hl
  · rcases Nat.lt_or_ge pos o with hx | hx
    · cases nn <;> simp <;> omega
    · have ho : o = pos := Nat.le_antisymm hx hpo
      subst ho
      have hf : nn = false := by
        cases nn
        · rfl
        · exact absurd (hnn rfl rfl) (by omega)
      subst hf
      simp <;> omega
  · have hd : decide (l = 0) = false := decide_eq_false (by omega)
    rw [hd]
    cases nn <;> simp <;> omega

/-- MessagePrinter::matchAll: all non-overlapping occurrences of the
pattern in the text, as (offset, length) pairs, left to right. -/
def matchAll (r : Regex) (text : List Char) : List (Nat × Nat) :=
  matchAllAux r text false 0

/-- How two adjacent reported spans relate: the later one starts at a
strictly larger offset and does not overlap the earlier one. -/
def SpanOrder (a b : Nat × Nat) : Prop :=
  a.1 + a.2 ≤ b.1 ∧ a.1 < b.1

theorem matchAllAux_head? {r : Regex} {s : List Char} {nn : Bool} {pos : Nat}
    {q : Nat × Nat} (hq : (matchAllAux r s nn pos).head? = some q) :
    findFrom r s nn pos = some q := by
  rw [matchAllAux.eq_def] at hq
  split at hq
  · simp at hq
  · rename_i o l h
    simp only [List.head?_cons, Option.some.injEq] at hq
    subst hq
    exact h

theorem matchAllAux_inv (r : Regex) (s : List Char) (nn : Bool) (pos : Nat) :
    (∀ p ∈ matchAllAux r s nn pos, pos ≤ p.1 ∧ p.1 + p.2 ≤ s.length ∧
        rmatch r ((s.drop p.1).take p.2) = true) ∧
      List.Chain' SpanOrder (matchAllAux r s nn pos) ∧
      (∀ i k, pos ≤ i → i + k ≤ s.length →
        (nn = true → i = pos → 0 < k) →
        rmatch r ((s.drop i).take k) = true →
        ∃ q ∈ matchAllAux r s nn pos, q.1 ≤ i ∧ i ≤ q.1 + q.2) := by
  induction nn, pos using matchAllAux.induct r s with
  | case1 nn pos h =>
      rw [matchAllAux.eq_def, h]
      refine ⟨by simp, by simp, ?_⟩
      intro i k hi hk hallow hm
      exact absurd hm (by simp [findFrom_none h i hi k hk hallow])
  | case2 nn pos o l h ih =>
      obtain ⟨hmem, hchain, hcomp⟩ := ih
      obtain ⟨hpo, hol, hm, hnnl, hmax, hleft⟩ := findFrom_some h
      rw [matchAllAux.eq_def, h]
      refine ⟨?_, ?_, ?_⟩
      · intro p hp
        rcases List.mem_cons.mp hp with rfl | hp
        · exact ⟨hpo, hol, hm⟩
        · obtain ⟨h1, h2, h3⟩ := hmem p hp
          exact ⟨by omega, h2, h3⟩
      · refine List.chain'_cons'.mpr ⟨?_, hchain⟩
        intro q hq
        obtain ⟨hq1, hq2, hqm, hqnn, -, -⟩ :=
          findFrom_some (matchAllAux_head? hq)
        refine ⟨hq1, ?_⟩
        rcases Nat.eq_zero_or_pos l with rfl | hl
        · rcases Nat.eq_or_lt_of_le hq1 with heq | hlt
          · exfalso
            have hq2' : 0 < q.2 := by
              apply hqnn (by simp)
              omega
            have := hmax q.2 hq2' (by omega)
            rw [show q.1 = o by omega] at hqm
            simp [this] at hqm
          · omega
        · omega
      · intro i k hi hk hallow hm
        rcases Nat.lt_or_ge i o with hio | hio
        · exact absurd hm (by simp [hleft i hi hio k hk hallow])
        · rcases le_or_lt i (o + l) with hile | hilt
          · exact ⟨(o, l), List.mem_cons_self .., hio, hile⟩
          · obtain ⟨q, hq, hq1, hq2⟩ :=
              hcomp i k (by omega) hk
                (fun _ hieq => absurd hieq (by omega)) hm
            exact ⟨q, List.mem_cons_of_mem _ hq, hq1, hq2⟩

/-- A list of naturals that is pairwise strictly increasing and bounded by
n has at most n + 1 - lo entries, lo a lower bound of its entries. -/
theorem pairwise_lt_length_le :
    ∀ (l : List Nat) (lo n : Nat), List.Pairwise (· < ·) l →
      (∀ x ∈ l, lo ≤ x ∧ x ≤ n) → l.length ≤ n + 1 - lo := by
  intro l
  induction l with
  | nil => intro lo n _ _; simp
  | cons a tl ih =>
      intro lo n hp hb
      obtain ⟨ha, htl⟩ := List.pairwise_cons.mp hp
      obtain ⟨hlo, hn⟩ := hb a (List.mem_cons_self ..)
      have := ih (a + 1) n htl
        (fun x hx => ⟨ha x hx, (hb x (List.mem_cons_of_mem _ hx)).2⟩)
      simp only [List.length_cons]
      omega

theorem matchAll_length_le (r : Regex) (text : List Char) :
    (matchAll r text).length ≤ text.length + 1 := by
  obtain ⟨hmem, hchain, -⟩ := matchAllAux_inv r text false 0
  have hchain' : List.Chain' (· < ·) ((matchAll r text).map Prod.fst) :=
    List.chain'_map_of_chain' Prod.fst (fun _ _ hab => hab.2) hchain
  have hpair : List.Pairwise (· < ·) ((matchAll r text).map Prod.fst) :=
    List.chain'_iff_pairwise.mp hchain'
  have hb : ∀ x ∈ (matchAll r text).map Prod.fst, 0 ≤ x ∧ x ≤ text.length := by
    intro x hx
    obtain ⟨p, hp, rfl⟩ := List.mem_map.mp hx
    obtain ⟨-, h2, -⟩ := hmem p hp
    exact ⟨Nat.zero_le _, by omega⟩
  have := pairwise_lt_length_le _ 0 text.length hpair hb
  simpa using this

/-- C6: matchAll (findAll) returns exactly one (offset, length) span per
non-overlapping occurrence of the pattern, in strictly increasing offset
order with adjacent spans non-overlapping; each span lies within the text
and its slice is a full match of the pattern; the result is empty exactly
when there is no occurrence; no occurrence is skipped (every position where
a match starts lies inside a reported span or at its start); and the scan
terminates even for patterns matching the empty string -- matchAll is a
total (well-founded) Lean function, reporting at most text.length + 1
spans, each successive scan resuming at the end of the previous match with
a repeated zero-length match disallowed. -/
theorem matchAll_spec (r : Regex) (text : List Char) :
    List.Chain' SpanOrder (matchAll r text) ∧
    (∀ p ∈ matchAll r text, p.1 + p.2 ≤ text.length ∧
        rmatch r ((text.drop p.1).take p.2) = true) ∧
    ((matchAll r text = []) ↔
      ∀ i k, i + k ≤ text.length →
        rmatch r ((text.drop i).take k) = false) ∧
    (∀ i k, i + k ≤ text.length →
      rmatch r ((text.drop i).take k) = true →
      ∃ q ∈ matchAll r text, q.1 ≤ i ∧ i ≤ q.1 + q.2) ∧
    (matchAll r text).length ≤ text.length + 1 := by
  obtain ⟨hmem, hchain, hcomp⟩ := matchAllAux_inv r text false 0
  have heq : matchAllAux r text false 0 = matchAll r text := rfl
  rw [heq] at hmem hchain hcomp
  refine ⟨hchain, ?_, ?_, ?_, matchAll_length_le r text⟩
  · intro p hp
    obtain ⟨-, h2, h3⟩ := hmem p hp
    exact ⟨h2, h3⟩
  · constructor
    · intro hnil i k hik
      cases hr : rmatch r ((text.drop i).take k)
      · rfl
      · obtain ⟨q, hq, -⟩ := hcomp i k (Nat.zero_le i) hik (by simp) hr
        rw [hnil] at hq
        simp at hq
    · intro hno
      cases hl : matchAll r text with
      | nil => rfl
      | cons a tl =>
          have ha : a ∈ matchAll r text := by
            rw [hl]
            exact List.mem_cons_self ..
          obtain ⟨-, h2, h3⟩ := hmem a ha
          rw [hno a.1 a.2 h2] at h3
          exact absurd h3 (by simp)
  · intro i k hik hm
    exact hcomp i k (Nat.zero_le i) hik (by simp) hm

/-- Witness for matchAll_spec: the pattern "a" occurs in the text "a", and
the completeness clause locates a reported span containing offset 0. -/
theorem matchAll_spec_witness :
    ∃ q ∈ matchAll (Regex.char 'a') ['a'], q.1 ≤ 0 ∧ 0 ≤ q.1 + q.2 :=
  (matchAll_spec (Regex.char 'a') ['a']).2.2.2.1 0 1 (by decide) (by decide)

/-- One countStats step, field by field. -/
theorem countStats_fields (p : MessagePrinter) :
    (countStats p).options = p.options ∧
    (countStats p).filter = p.filter ∧
    (countStats p).printedMessages = p.printedMessages + 1 ∧
    (countStats p).outputWrites = p.outputWrites ∧
    (countStats p).flushes = p.flushes ∧
    (countStats p).colorOutput = p.colorOutput ∧
    (countStats p).stopCalls = p.stopCalls +
      (if 0 < p.options.maxMessages ∧
          p.options.maxMessages ≤ p.printedMessages + 1 ∧
          p.options.hasStopRunningFn = true then 1 else 0) ∧
    (countStats p).assertFailures = p.assertFailures +
      (if 0 < p.options.maxMessages ∧
          p.options.maxMessages ≤ p.printedMessages + 1 ∧
          p.options.hasStopRunningFn = false then 1 else 0) ∧
    (countStats p).afterMatchCount = p.afterMatchCount -
      (if 0 < p.options.numAfterMatch then 1 else 0) := by
  rcases Bool.eq_false_or_eq_true p.options.hasStopRunningFn with hfn | hfn <;>
    by_cases h1 : 0 < p.options.maxMessages ∧
        p.options.maxMessages ≤ p.printedMessages + 1 <;>
      by_cases h2 : 0 < p.options.numAfterMatch <;>
        simp [countStats, hfn, h1, h2]

/-- Iterating countStats from a freshly constructed state (printed count
zero): closed-form values of every field. -/
theorem countStats_iterate (p : MessagePrinter) (hp : p.printedMessages = 0)
    (k : Nat) :
    (countStats^[k] p).options = p.options ∧
    (countStats^[k] p).filter = p.filter ∧
    (countStats^[k] p).printedMessages = k ∧
    (countStats^[k] p).outputWrites = p.outputWrites ∧
    (countStats^[k] p).flushes = p.flushes ∧
    (countStats^[k] p).colorOutput = p.colorOutput ∧
    (countStats^[k] p).stopCalls = p.stopCalls +
      (if 0 < p.options.maxMessages ∧ p.options.hasStopRunningFn = true
        then k + 1 - p.options.maxMessages else 0) ∧
    (countStats^[k] p).assertFailures = p.assertFailures +
      (if 0 < p.options.maxMessages ∧ p.options.hasStopRunningFn = false
        then k + 1 - p.options.maxMessages else 0) ∧
    (countStats^[k] p).afterMatchCount = p.afterMatchCount -
      (if 0 < p.options.numAfterMatch then (k : Int) else 0) := by
  induction k with
  | zero =>
      refine ⟨rfl, rfl, hp, rfl, rfl, rfl, ?_, ?_, ?_⟩ <;>
        split <;> rename_i hc <;> simp <;> omega
  | succ k ih =>
      obtain ⟨i1, i2, i3, i4, i5, i6, i7, i8, i9⟩ := ih
      rw [Function.iterate_succ_apply']
      obtain ⟨f1, f2, f3, f4, f5, f6, f7, f8, f9⟩ :=
        countStats_fields (countStats^[k] p)
      rw [f1, f2, f3, f4, f5, f6, f7, f8, f9, i1, i2, i3, i4, i5, i6, i7,
        i8, i9]
      refine ⟨rfl, rfl, rfl, rfl, rfl, rfl, ?_, ?_, ?_⟩
      · rcases Bool.eq_false_or_eq_true p.options.hasStopRunningFn with
          hfn | hfn <;>
          by_cases hm : 0 < p.options.maxMessages <;>
            by_cases hm2 : p.options.maxMessages ≤ k + 1 <;>
              simp [hfn, hm, hm2] <;> omega
      · rcases Bool.eq_false_or_eq_true p.options.hasStopRunningFn with
          hfn | hfn <;>
          by_cases hm : 0 < p.options.maxMessages <;>
            by_cases hm2 : p.options.maxMessages ≤ k + 1 <;>
              simp [hfn, hm, hm2] <;> omega
      · by_cases hn : 0 < p.options.numAfterMatch <;> simp [hn] <;> ring

/-- C1 counterexample: calling printRawMessage with a non-null iovec array
of zero buffers is not a no-op: the code only early-returns on the nullptr
sentinel, so a zero-buffer call still performs an (empty) output write,
flushes the sink, and increments the printed-message count. -/
theorem printRawMessage_empty_iovec_counterexample :
    (printRawMessage (mkMessagePrinter ⟨0, 0, false, false⟩ ⟨"", 0⟩)
        (some [])).printedMessages = 1 ∧
    (printRawMessage (mkMessagePrinter ⟨0, 0, false, false⟩ ⟨"", 0⟩)
        (some [])).flushes = 1 ∧
    (printRawMessage (mkMessagePrinter ⟨0, 0, false, false⟩ ⟨"", 0⟩)
        (some [])).outputWrites = [[]] :=
  ⟨rfl, rfl, rfl⟩

/-- C1 amended: only the null-data sentinel makes printRawMessage a no-op;
a non-null buffer array -- including one with zero buffers -- always
produces exactly one output write (the concatenation of its segments),
one flush, and one printed-message count increment. -/
theorem printRawMessage_raw_noop_amended (p : MessagePrinter)
    (bufs : List (List Nat)) :
    printRawMessage p none = p ∧
    (printRawMessage p (some bufs)).outputWrites =
      p.outputWrites ++ [bufs.flatten] ∧
    (printRawMessage p (some bufs)).flushes = p.flushes + 1 ∧
    (printRawMessage p (some bufs)).printedMessages =
      p.printedMessages + 1 := by
  refine ⟨rfl, ?_, ?_, ?_⟩ <;>
    · simp only [printRawMessage, countStats]
      split_ifs <;> rfl

/-- C2 counterexample: with exactly one endpoint non-empty the output is
not just that endpoint's description -- the arrow is still appended
(the code appends " -> " whenever at least one endpoint is non-empty). -/
theorem serializeConnectionDetails_one_endpoint_counterexample :
    serializeConnectionDetails 40 3
        ⟨false, .af_inet, "1.1.1.1", 80, "A"⟩
        ⟨true, .af_unspec, "", 0, ""⟩
        .mc_unknown_protocol = "A -> " ∧
    ("A -> " : String) ≠ "A" := by
  exact ⟨rfl, by decide⟩

/-- C2 amended: both endpoints empty yields "" (for any protocol); with at
least one endpoint non-empty the arrow " -> " is always present (so one
non-empty endpoint yields "<from> -> " or " -> <to>", not the bare
description), the non-empty endpoints' descriptions appear around it, and
" (<protocol>)" is appended exactly when the protocol is known. -/
theorem serializeConnectionDetails_amended (k u : Nat)
    (a b : SocketAddress) (prot : mc_protocol_t) :
    (a.isEmpty = true → b.isEmpty = true →
      serializeConnectionDetails k u a b prot = "") ∧
    (a.isEmpty = false → b.isEmpty = true →
      serializeConnectionDetails k u a b prot =
        (if prot = mc_protocol_t.mc_unknown_protocol then
          describeAddress k u a ++ " -> "
        else
          describeAddress k u a ++ " -> " ++ " (" ++
            mc_protocol_to_string prot ++ ")")) ∧
    (a.isEmpty = true → b.isEmpty = false →
      serializeConnectionDetails k u a b prot =
        (if prot = mc_protocol_t.mc_unknown_protocol then
          " -> " ++ describeAddress k u b
        else
          " -> " ++ describeAddress k u b ++ " (" ++
            mc_protocol_to_string prot ++ ")")) ∧
    (a.isEmpty = false → b.isEmpty = false →
      serializeConnectionDetails k u a b prot =
        (if prot = mc_protocol_t.mc_unknown_protocol then
          describeAddress k u a ++ " -> " ++ describeAddress k u b
        else
          describeAddress k u a ++ " -> " ++ describeAddress k u b ++
            " (" ++ mc_protocol_to_string prot ++ ")")) := by
  refine ⟨fun ha hb => ?_, fun ha hb => ?_, fun ha hb => ?_,
    fun ha hb => ?_⟩ <;>
    by_cases hp : prot = mc_protocol_t.mc_unknown_protocol <;>
      simp [serializeConnectionDetails, ha, hb, hp, String.append_assoc]

/-- Witness for serializeConnectionDetails_amended: both endpoints set,
known protocol. -/
theorem serializeConnectionDetails_amended_witness :
    serializeConnectionDetails 40 3
        ⟨false, .af_inet, "1.1.1.1", 80, "A"⟩
        ⟨false, .af_inet, "2.2.2.2", 90, "B"⟩
        .mc_ascii_protocol = "A -> B (ascii)" := by
  have h := (serializeConnectionDetails_amended 40 3
      ⟨false, .af_inet, "1.1.1.1", 80, "A"⟩
      ⟨false, .af_inet, "2.2.2.2", 90, "B"⟩
      .mc_ascii_protocol).2.2.2 rfl rfl
  rw [h]
  rfl

/-- C3 counterexample: constructing a printer with a positive
maxMessages bound and no stop callback succeeds -- the constructor
performs no validation, records no failure, and hands back a fully
configured printer (the misconfiguration is only caught later, inside
countStats). -/
theorem mkMessagePrinter_no_validation_counterexample :
    (mkMessagePrinter ⟨1, 0, false, false⟩ ⟨"", 0⟩).options.maxMessages
      = 1 ∧
    (mkMessagePrinter ⟨1, 0, false, false⟩ ⟨"", 0⟩).options.hasStopRunningFn
      = false ∧
    (mkMessagePrinter ⟨1, 0, false, false⟩ ⟨"", 0⟩).assertFailures = 0 ∧
    (mkMessagePrinter ⟨1, 0, false, false⟩ ⟨"", 0⟩).stopCalls = 0 :=
  ⟨rfl, rfl, rfl, rfl⟩

/-- C3 amended: a positive bound with no stop callback is not rejected at
construction time; construction succeeds with no failure recorded, and the
missing callback is caught by the assert inside countStats on the call
that reaches the bound (and not before). -/
theorem countStats_assert_at_use_amended (opts : Options) (f : Filter)
    (hm : 0 < opts.maxMessages) (hfn : opts.hasStopRunningFn = false) :
    (mkMessagePrinter opts f).assertFailures = 0 ∧
    (countStats^[opts.maxMessages]
        (mkMessagePrinter opts f)).assertFailures = 1 ∧
    ∀ k < opts.maxMessages,
      (countStats^[k] (mkMessagePrinter opts f)).assertFailures = 0 := by
  have h := fun k =>
    (countStats_iterate (mkMessagePrinter opts f) rfl k).2.2.2.2.2.2.2.1
  refine ⟨rfl, ?_, ?_⟩
  · rw [h opts.maxMessages]
    simp only [mkMessagePrinter]
    rw [if_pos ⟨hm, hfn⟩]
    omega
  · intro k hk
    rw [h k]
    simp only [mkMessagePrinter]
    rw [if_pos ⟨hm, hfn⟩]
    omega

/-- Witness for countStats_assert_at_use_amended: bound 1, no callback,
the first countStats call records the assert violation. -/
theorem countStats_assert_at_use_amended_witness :
    (countStats^[1]
      (mkMessagePrinter ⟨1, 0, false, false⟩ ⟨"", 0⟩)).assertFailures = 1 :=
  (countStats_assert_at_use_amended ⟨1, 0, false, false⟩ ⟨"", 0⟩
    (by decide) rfl).2.1

/-- C4: with a positive maxMessages bound and a stop callback registered,
after countStats has run exactly maxMessages times from a fresh printer
the stop callback has been invoked exactly once, and it had not been
invoked after any earlier number of calls -- so the single invocation
happened during the maxMessages-th call. -/
theorem countStats_stop_on_bound (opts : Options) (f : Filter)
    (hm : 0 < opts.maxMessages) (hfn : opts.hasStopRunningFn = true) :
    (countStats^[opts.maxMessages] (mkMessagePrinter opts f)).stopCalls
      = 1 ∧
    ∀ k < opts.maxMessages,
      (countStats^[k] (mkMessagePrinter opts f)).stopCalls = 0 := by
  have h := fun k =>
    (countStats_iterate (mkMessagePrinter opts f) rfl k).2.2.2.2.2.2.1
  refine ⟨?_, ?_⟩
  · rw [h opts.maxMessages]
    simp only [mkMessagePrinter]
    rw [if_pos ⟨hm, hfn⟩]
    omega
  · intro k hk
    rw [h k]
    simp only [mkMessagePrinter]
    rw [if_pos ⟨hm, hfn⟩]
    omega

/-- Witness for countStats_stop_on_bound: bound 2 with callback; after two
calls the callback has run exactly once. -/
theorem countStats_stop_on_bound_witness :
    (countStats^[2]
      (mkMessagePrinter ⟨2, 0, false, true⟩ ⟨"", 0⟩)).stopCalls = 1 :=
  (countStats_stop_on_bound ⟨2, 0, false, true⟩ ⟨"", 0⟩ (by decide) rfl).1

/-- C10: once the printed count has reached or exceeded a positive bound
(k calls already made, k ≥ maxMessages would hold after them; here
maxMessages ≤ k), every further countStats call invokes the stop callback
again -- the condition is a plain ≥ comparison with no latching, so the
stop signal is re-delivered on each subsequent printed message. -/
theorem countStats_stop_redelivered (opts : Options) (f : Filter) (k : Nat)
    (hm : 0 < opts.maxMessages) (hfn : opts.hasStopRunningFn = true)
    (hk : opts.maxMessages ≤ k) :
    (countStats^[k + 1] (mkMessagePrinter opts f)).stopCalls =
      (countStats^[k] (mkMessagePrinter opts f)).stopCalls + 1 := by
  have h := fun j =>
    (countStats_iterate (mkMessagePrinter opts f) rfl j).2.2.2.2.2.2.1
  rw [h (k + 1), h k]
  simp only [mkMessagePrinter]
  rw [if_pos ⟨hm, hfn⟩, if_pos ⟨hm, hfn⟩]
  omega

/-- Witness for countStats_stop_redelivered: bound 1, callback present;
the second call re-invokes the callback. -/
theorem countStats_stop_redelivered_witness :
    (countStats^[2]
        (mkMessagePrinter ⟨1, 0, false, true⟩ ⟨"", 0⟩)).stopCalls =
      (countStats^[1]
        (mkMessagePrinter ⟨1, 0, false, true⟩ ⟨"", 0⟩)).stopCalls + 1 :=
  countStats_stop_redelivered ⟨1, 0, false, true⟩ ⟨"", 0⟩ 1
    (by decide) rfl (by decide)

/-- C9 counterexample: with address-size constant 10 and prefix size 2, a
local (AF_UNIX) endpoint description of length 7 = 10 - 2 - 1 is strictly
below the claimed maximum display width 10 - 2, yet describeAddress
already appends the ellipsis (the code's threshold has an extra - 1). -/
theorem describeAddress_threshold_counterexample :
    describeAddress 10 2 ⟨false, .af_unix, "", 0, "1234567"⟩
      = "1234567..." ∧
    ("1234567" : String).length < 10 - 2 := by
  exact ⟨rfl, by decide⟩

/-- C9 amended: the ellipsis threshold is kAddressMaxSize -
unixPrefixSize - 1 (not kAddressMaxSize - unixPrefixSize): an AF_UNIX
endpoint description of length at or beyond that threshold is returned
with "..." appended (the description itself is not shortened by this
function); a shorter AF_UNIX description, and every non-AF_UNIX endpoint,
is returned unchanged. -/
theorem describeAddress_amended (k u : Nat) (a : SocketAddress) :
    (a.family = AddrFamily.af_unix →
      k - u - 1 ≤ a.description.length →
      describeAddress k u a = a.description ++ "...") ∧
    (a.family = AddrFamily.af_unix →
      a.description.length < k - u - 1 →
      describeAddress k u a = a.description) ∧
    (a.family ≠ AddrFamily.af_unix →
      describeAddress k u a = a.description) := by
  refine ⟨fun h1 h2 => ?_, fun h1 h2 => ?_, fun h1 => ?_⟩
  · simp [describeAddress, h1, h2]
  · rw [describeAddress, if_neg (fun hc => absurd hc.2 (by omega))]
  · rw [describeAddress, if_neg (fun hc => absurd hc.1 h1)]

/-- Witness for describeAddress_amended: a description exactly at the
threshold gets the ellipsis. -/
theorem describeAddress_amended_witness :
    describeAddress 10 2 ⟨false, .af_unix, "", 0, "1234567"⟩
      = "1234567" ++ "..." :=
  (describeAddress_amended 10 2 ⟨false, .af_unix, "", 0, "1234567"⟩).1
    rfl (by decide)

/-- Boolean normal form of matchAddress (the two early returns, as one
conjunction). -/
theorem matchAddress_eq (f : Filter) (a b : SocketAddress) :
    matchAddress f a b =
      (!((f.host != "") && !matchIPAddress f.host a &&
          !matchIPAddress f.host b) &&
        !((f.port != 0) && !matchPort f.port a && !matchPort f.port b)) := by
  simp only [matchAddress]
  split_ifs with h1 h2
  · simp_all
  · simp_all
  · simp_all
    constructor
    · by_cases hh : f.host = ""
      · exact Or.inl (Or.inl hh)
      · rcases Bool.eq_false_or_eq_true (matchIPAddress f.host a) with
          hA | hA
        · exact Or.inl (Or.inr hA)
        · exact Or.inr (h1 hh hA)
    · by_cases hh : f.port = 0
      · exact Or.inl (Or.inl hh)
      · rcases Bool.eq_false_or_eq_true (matchPort f.port a) with hA | hA
        · exact Or.inl (Or.inr hA)
        · exact Or.inr (h2 hh hA)

/-- C5: a pair with both criteria unset always passes; with an expected IP
set and neither endpoint a non-empty endpoint of that IP, the pair fails;
an empty endpoint never satisfies either criterion; and a passing pair
satisfies every configured criterion (logical AND of the criteria). -/
theorem matchAddress_filter_spec (f : Filter) (a b : SocketAddress) :
    (f.host = "" → f.port = 0 → matchAddress f a b = true) ∧
    (f.host ≠ "" → (a.isEmpty = true ∨ a.ip ≠ f.host) →
      (b.isEmpty = true ∨ b.ip ≠ f.host) → matchAddress f a b = false) ∧
    (a.isEmpty = true → matchIPAddress f.host a = false ∧
      matchPort f.port a = false) ∧
    (matchAddress f a b = true →
      (f.host ≠ "" →
        matchIPAddress f.host a = true ∨ matchIPAddress f.host b = true) ∧
      (f.port ≠ 0 →
        matchPort f.port a = true ∨ matchPort f.port b = true)) := by
  refine ⟨?_, ?_, ?_, ?_⟩
  · intro h1 h2
    simp [matchAddress_eq, h1, h2]
  · intro h1 h2 h3
    have ha : matchIPAddress f.host a = false := by
      rcases h2 with h | h
      · simp [matchIPAddress, h]
      · simp [matchIPAddress, h, Ne.symm h]
    have hb : matchIPAddress f.host b = false := by
      rcases h3 with h | h
      · simp [matchIPAddress, h]
      · simp [matchIPAddress, h, Ne.symm h]
    simp [matchAddress_eq, h1, ha, hb]
  · intro h
    exact ⟨by simp [matchIPAddress, h], by simp [matchPort, h]⟩
  · intro hpass
    rw [matchAddress_eq] at hpass
    refine ⟨?_, ?_⟩
    · intro hhost
      by_contra hc
      push_neg at hc
      obtain ⟨hc1, hc2⟩ := hc
      simp only [ne_eq, Bool.not_eq_true] at hc1 hc2
      simp [hhost, hc1, hc2] at hpass
    · intro hport
      by_contra hc
      push_neg at hc
      obtain ⟨hc1, hc2⟩ := hc
      simp only [ne_eq, Bool.not_eq_true] at hc1 hc2
      simp [hport, hc1, hc2] at hpass

/-- Witness for matchAddress_filter_spec: unset criteria pass any pair. -/
theorem matchAddress_filter_spec_witness :
    matchAddress ⟨"", 0⟩ ⟨true, .af_unspec, "", 0, ""⟩
      ⟨true, .af_unspec, "", 0, ""⟩ = true :=
  (matchAddress_filter_spec ⟨"", 0⟩ ⟨true, .af_unspec, "", 0, ""⟩
    ⟨true, .af_unspec, "", 0, ""⟩).1 rfl rfl

/-- C8: for a printer armed by a match (after-match counter set to the
configured numAfterMatch): whenever the counter is positive, the next
countStats call decrements it by exactly one, independent of the
maxMessages bound and stop callback; arming it at N and calling countStats
N times leaves it at exactly 0; and with a configured after-match count of
0 the counter is never decremented (it stays at 0 forever). -/
theorem afterMatch_counter_spec (opts : Options) (f : Filter) (j : Nat) :
    (0 < (countStats^[j]
        (startAfterMatch (mkMessagePrinter opts f))).afterMatchCount →
      (countStats^[j + 1]
          (startAfterMatch (mkMessagePrinter opts f))).afterMatchCount =
        (countStats^[j]
          (startAfterMatch (mkMessagePrinter opts f))).afterMatchCount
          - 1) ∧
    (countStats^[opts.numAfterMatch]
        (startAfterMatch (mkMessagePrinter opts f))).afterMatchCount = 0 ∧
    (opts.numAfterMatch = 0 →
      (countStats^[j]
        (startAfterMatch (mkMessagePrinter opts f))).afterMatchCount
        = 0) := by
  have h9 := fun j => (countStats_iterate
    (startAfterMatch (mkMessagePrinter opts f)) rfl j).2.2.2.2.2.2.2.2
  refine ⟨?_, ?_, ?_⟩
  · intro hpos
    rw [h9 j] at hpos
    rw [h9 (j + 1), h9 j]
    simp only [startAfterMatch, mkMessagePrinter] at hpos ⊢
    by_cases hn : 0 < opts.numAfterMatch
    · rw [if_pos hn, if_pos hn]
      push_cast
      ring
    · rw [if_neg hn] at hpos
      simp only [Int.sub_zero, Int.natCast_pos] at hpos
      exact absurd hpos hn
  · rw [h9 opts.numAfterMatch]
    simp only [startAfterMatch, mkMessagePrinter]
    by_cases hn : 0 < opts.numAfterMatch
    · rw [if_pos hn]
      ring
    · rw [if_neg hn]
      have h0 : opts.numAfterMatch = 0 := by omega
      simp [h0]
  · intro hn0
    rw [h9 j]
    simp only [startAfterMatch, mkMessagePrinter]
    simp [hn0]

/-- Witness for afterMatch_counter_spec: configured count 2, after one
call the counter is 1 (positive), and the next call takes it to 0. -/
theorem afterMatch_counter_spec_witness :
    (countStats^[1 + 1] (startAfterMatch
        (mkMessagePrinter ⟨0, 2, false, false⟩ ⟨"", 0⟩))).afterMatchCount =
      (countStats^[1] (startAfterMatch
        (mkMessagePrinter ⟨0, 2, false, false⟩ ⟨"", 0⟩))).afterMatchCount
        - 1 :=
  (afterMatch_counter_spec ⟨0, 2, false, false⟩ ⟨"", 0⟩ 1).1 (by decide)

theorem string_length_pos {s : String} (h : s ≠ "") : 0 < s.length := by
  cases s with
  | mk data =>
      cases data with
      | nil => exact absurd rfl h
      | cons c cs => simp [String.length]

theorem backslashifyByte_length_pos (b : Nat) :
    0 < (backslashifyByte b).length := by
  unfold backslashifyByte
  split <;> simp [String.length]

theorem backslashify_length_pos {key : List Nat} (h : key ≠ []) :
    0 < (backslashify key).length := by
  cases key with
  | nil => exact absurd rfl h
  | cons b rest =>
      simp only [backslashify, String.length_append]
      have := backslashifyByte_length_pos b
      omega

/-- The present parts of a message header, in order, following the spec's
words: operation name (omitted if unknown), result name (omitted if
unknown), backslash-escaped key (omitted if empty). -/
def headerParts (op : mc_op_t) (result : mc_res_t) (key : List Nat) :
    List String :=
  (match op with
    | .mc_op_unknown => []
    | .mc_op_known n => [n]) ++
  (match result with
    | .mc_res_unknown => []
    | .mc_res_known n => [n]) ++
  (if key = [] then [] else [backslashify key])

/-- Joining parts with exactly one separating space between adjacent
parts (the spec's words: no leading, trailing or double spaces; empty
when there are no parts). -/
def joinParts : List String → String
  | [] => ""
  | [x] => x
  | x :: xs => x ++ " " ++ joinParts xs

/-- C7: serializeMessageHeader is exactly the space-separated
concatenation of the present parts -- operation name when known, result
name when known, backslash-escaped key when non-empty -- with one space
between adjacent present parts, empty when all three are absent.  The
hypotheses record that the external enum stringifiers never return an
empty name for a known operation/result. -/
theorem serializeMessageHeader_spec (op : mc_op_t) (result : mc_res_t)
    (key : List Nat)
    (hop : ∀ n, op = mc_op_t.mc_op_known n → n ≠ "")
    (hres : ∀ n, result = mc_res_t.mc_res_known n → n ≠ "") :
    serializeMessageHeader op result key =
      joinParts (headerParts op result key) := by
  cases op with
  | mc_op_unknown =>
      cases result with
      | mc_res_unknown =>
          rcases eq_or_ne key [] with hk | hk <;>
            simp [serializeMessageHeader, headerParts, joinParts, hk,
              mc_res_to_string, String.empty_append]
      | mc_res_known m =>
          have hm : 0 < m.length := string_length_pos (hres m rfl)
          rcases eq_or_ne key [] with hk | hk <;>
            simp [serializeMessageHeader, headerParts, joinParts, hk,
              mc_res_to_string, String.empty_append, hm,
              List.length_eq_zero]
  | mc_op_known n =>
      have hn : 0 < n.length := string_length_pos (hop n rfl)
      cases result with
      | mc_res_unknown =>
          rcases eq_or_ne key [] with hk | hk <;>
            simp [serializeMessageHeader, headerParts, joinParts, hk,
              mc_op_to_string, String.empty_append, hn,
              List.length_eq_zero]
      | mc_res_known m =>
          have hm : 0 < m.length := string_length_pos (hres m rfl)
          have hnm : 0 < (n ++ " " ++ m).length := by
            simp only [String.length_append]
            omega
          rcases eq_or_ne key [] with hk | hk <;>
            simp [serializeMessageHeader, headerParts, joinParts, hk,
              mc_op_to_string, mc_res_to_string, String.empty_append,
              hn, hm, hnm, List.length_eq_zero, String.append_assoc]

/-- Witness for serializeMessageHeader_spec: known operation "get", known
result "found", plain ASCII key "k" (byte 107) -- the header is
"get found k". -/
theorem serializeMessageHeader_spec_witness :
    serializeMessageHeader (.mc_op_known "get") (.mc_res_known "found")
      [107] = "get found k" := by
  have h := serializeMessageHeader_spec (.mc_op_known "get")
    (.mc_res_known "found") [107]
    (fun n hn => by injection hn with hn'; subst hn'; decide)
    (fun n hn => by injection hn with hn'; subst hn'; decide)
  rw [h]
  decide

end Mcpiper
